import Mathlib

/-!
Verification development for the rustdis in-memory Redis server.

The development shallowly embeds the RESP frame codec (src/frame.rs), the
key-value store (src/store.rs) and the string commands relevant to the
specification claims (src/commands/*.rs).  Bytes are modelled as `Nat`
(values below 256 where it matters), Rust `i64` as `Int` with explicit
two's-complement wrapping, monotonic instants and durations as
milliseconds (`Nat`), and fallible or panicking code as `Option`/`Except`.
-/

namespace Rustdis

/-- Models get_frame_bytes (frame.rs 217-231): scan the buffer for the first
CR LF window, return the bytes before it together with the bytes after it
(the cursor is advanced past the CRLF); `none` models `Error::Incomplete`. -/
def splitLine : List Nat → Option (List Nat × List Nat)
  | [] => none
  | b :: rest =>
    if b = 13 ∧ rest.head? = some 10 then some ([], rest.tail)
    else (splitLine rest).map (fun p => (b :: p.1, p.2))

/-- Whether a byte sequence contains a CR LF window (the terminator
get_frame_bytes searches for). -/
def hasCrlf : List Nat → Bool
  | [] => false
  | b :: rest => (b = 13 && rest.head? = some 10) || hasCrlf rest

/-- Digit production with explicit fuel (the recursion divides by ten, so any
fuel above the value itself is enough). -/
def natDigitsAux : Nat → Nat → List Nat
  | 0, _ => []
  | fuel + 1, n => if n < 10 then [48 + n] else natDigitsAux fuel (n / 10) ++ [48 + n % 10]

/-- ASCII decimal digits of a natural number, most significant first
(the digits Rust's integer Display emits). -/
def natDigits (n : Nat) : List Nat := natDigitsAux (n + 1) n

/-- ASCII decimal digit test. -/
def isDigit (b : Nat) : Bool := 48 ≤ b && b ≤ 57

/-- Accumulating decimal evaluation of a digit run; `none` on a non-digit. -/
def digitsVal (acc : Nat) : List Nat → Option Nat
  | [] => some acc
  | b :: r => if isDigit b then digitsVal (acc * 10 + (b - 48)) r else none

/-- Core of Rust str::parse for a 64-bit integer: a non-empty digit run whose
value fits the signed 64-bit range. -/
def parseI64Core (neg : Bool) (ds : List Nat) : Option Int :=
  if ds = [] then none
  else
    match digitsVal 0 ds with
    | none => none
    | some m =>
      if neg then if m ≤ 2 ^ 63 then some (-(m : Int)) else none
      else if m ≤ 2 ^ 63 - 1 then some (m : Int) else none

/-- Rust str::parse::<i64> (also isize on a 64-bit target) applied to raw
bytes.  The String::from_utf8 step preceding it in frame.rs cannot change the
outcome: any byte outside ASCII fails the digit test as well. -/
def parseI64 (bs : List Nat) : Option Int :=
  match bs with
  | [] => none
  | b :: rest =>
    if b = 43 then parseI64Core false rest
    else if b = 45 then parseI64Core true rest
    else parseI64Core false bs

/-- Rust Display for a 64-bit integer (i.to_string()): minus sign for
negatives, then the decimal digits. -/
def intToBytes (i : Int) : List Nat :=
  if i < 0 then 45 :: natDigits (-i).toNat else natDigits i.toNat

/-- UTF-8 continuation byte test (10xxxxxx). -/
def isCont (b : Nat) : Bool := 128 ≤ b && b ≤ 191

/-- Rust String::from_utf8 / str::from_utf8 validation and decoding
(RFC 3629: no overlong forms, no surrogates, at most U+10FFFF), returning the
decoded characters; `none` models the FromUtf8Error. -/
def utf8Decode : List Nat → Option (List Char)
  | [] => some []
  | b :: rest =>
    if b < 128 then (utf8Decode rest).map (fun cs => Char.ofNat b :: cs)
    else if b < 194 then none
    else if b ≤ 223 then
      match rest with
      | c1 :: rest2 =>
        if isCont c1 then
          (utf8Decode rest2).map (fun cs => Char.ofNat ((b - 192) * 64 + (c1 - 128)) :: cs)
        else none
      | _ => none
    else if b ≤ 239 then
      match rest with
      | c1 :: c2 :: rest2 =>
        let lo := if b = 224 then 160 else 128
        let hi := if b = 237 then 159 else 191
        if lo ≤ c1 && c1 ≤ hi && isCont c2 then
          (utf8Decode rest2).map
            (fun cs => Char.ofNat ((b - 224) * 4096 + (c1 - 128) * 64 + (c2 - 128)) :: cs)
        else none
      | _ => none
    else if b ≤ 244 then
      match rest with
      | c1 :: c2 :: c3 :: rest2 =>
        let lo := if b = 240 then 144 else 128
        let hi := if b = 244 then 143 else 191
        if lo ≤ c1 && c1 ≤ hi && isCont c2 && isCont c3 then
          (utf8Decode rest2).map
            (fun cs =>
              Char.ofNat
                ((b - 240) * 262144 + (c1 - 128) * 4096 + (c2 - 128) * 64 + (c3 - 128)) :: cs)
        else none
      | _ => none
    else none

/-- Whether a byte sequence is valid UTF-8. -/
def isValidUtf8 (bs : List Nat) : Bool := (utf8Decode bs).isSome

/-- UTF-8 encoding of one character (Rust char::encode_utf8). -/
def utf8EncodeChar (c : Char) : List Nat :=
  let n := c.toNat
  if n < 128 then [n]
  else if n < 2048 then [192 + n / 64, 128 + n % 64]
  else if n < 65536 then [224 + n / 4096, 128 + (n / 64) % 64, 128 + n % 64]
  else [240 + n / 262144, 128 + (n / 4096) % 64, 128 + (n / 64) % 64, 128 + n % 64]

/-- UTF-8 byte sequence of a character list (Bytes::from(String)). -/
def encodeChars (cs : List Char) : List Nat := (cs.map utf8EncodeChar).flatten

/-- UTF-8 byte sequence of a Lean string literal: the bytes of the
corresponding Rust String. -/
def strBytes (s : String) : List Nat := encodeChars s.data

/-- Decode a byte sequence into a Lean string (used where the source calls
String::from_utf8 and keeps the String). -/
def bytesToString (bs : List Nat) : Option String :=
  (utf8Decode bs).map (fun cs => String.mk cs)

/-- Byte length of the Rust String holding these characters (String::len). -/
def utf8ByteLen (cs : List Char) : Nat := (cs.map (fun c => (utf8EncodeChar c).length)).sum

/-- The usize cast of a 64-bit signed integer on a 64-bit target:
two's-complement wrap into 0 .. 2^64 - 1. -/
def usizeOfI64 (i : Int) : Nat := (i % 2 ^ 64).toNat

/-- The Frame enum (frame.rs 24-32).  Text payloads are carried as their UTF-8
bytes.  NullBulkString is the null-bulk reply variant the command layer uses
(set.rs, getex.rs); the snapshot's frame.rs predates it, so its serialization
below is modelled from the spec. -/
inductive Frame where
  | Simple (s : List Nat)
  | Error (s : List Nat)
  | Integer (i : Int)
  | Bulk (b : List Nat)
  | Null
  | NullBulkString
  | Array (xs : List Frame)
deriving Repr

mutual

/-- Structural equality decision for frames (PartialEq in the source). -/
def frameDecEq : (a b : Frame) → Decidable (a = b)
  | .Simple s, .Simple t =>
    match decEq s t with
    | isTrue h => isTrue (by rw [h])
    | isFalse h => isFalse (by intro hc; cases hc; exact h rfl)
  | .Error s, .Error t =>
    match decEq s t with
    | isTrue h => isTrue (by rw [h])
    | isFalse h => isFalse (by intro hc; cases hc; exact h rfl)
  | .Integer i, .Integer j =>
    match decEq i j with
    | isTrue h => isTrue (by rw [h])
    | isFalse h => isFalse (by intro hc; cases hc; exact h rfl)
  | .Bulk s, .Bulk t =>
    match decEq s t with
    | isTrue h => isTrue (by rw [h])
    | isFalse h => isFalse (by intro hc; cases hc; exact h rfl)
  | .Null, .Null => isTrue rfl
  | .NullBulkString, .NullBulkString => isTrue rfl
  | .Array xs, .Array ys =>
    match frameListDecEq xs ys with
    | isTrue h => isTrue (by rw [h])
    | isFalse h => isFalse (by intro hc; cases hc; exact h rfl)
  | .Simple _, .Error _ | .Simple _, .Integer _ | .Simple _, .Bulk _ | .Simple _, .Null
  | .Simple _, .NullBulkString | .Simple _, .Array _
  | .Error _, .Simple _ | .Error _, .Integer _ | .Error _, .Bulk _ | .Error _, .Null
  | .Error _, .NullBulkString | .Error _, .Array _
  | .Integer _, .Simple _ | .Integer _, .Error _ | .Integer _, .Bulk _ | .Integer _, .Null
  | .Integer _, .NullBulkString | .Integer _, .Array _
  | .Bulk _, .Simple _ | .Bulk _, .Error _ | .Bulk _, .Integer _ | .Bulk _, .Null
  | .Bulk _, .NullBulkString | .Bulk _, .Array _
  | .Null, .Simple _ | .Null, .Error _ | .Null, .Integer _ | .Null, .Bulk _
  | .Null, .NullBulkString | .Null, .Array _
  | .NullBulkString, .Simple _ | .NullBulkString, .Error _ | .NullBulkString, .Integer _
  | .NullBulkString, .Bulk _ | .NullBulkString, .Null | .NullBulkString, .Array _
  | .Array _, .Simple _ | .Array _, .Error _ | .Array _, .Integer _ | .Array _, .Bulk _
  | .Array _, .Null | .Array _, .NullBulkString => isFalse (by intro hc; cases hc)

/-- Equality decision for frame lists. -/
def frameListDecEq : (a b : List Frame) → Decidable (a = b)
  | [], [] => isTrue rfl
  | [], _ :: _ => isFalse (by intro hc; cases hc)
  | _ :: _, [] => isFalse (by intro hc; cases hc)
  | x :: xs, y :: ys =>
    match frameDecEq x y, frameListDecEq xs ys with
    | isTrue h1, isTrue h2 => isTrue (by rw [h1, h2])
    | isFalse h1, _ => isFalse (by intro hc; cases hc; exact h1 rfl)
    | _, isFalse h2 => isFalse (by intro hc; cases hc; exact h2 rfl)

end

instance : DecidableEq Frame := frameDecEq

mutual

/-- Frame::serialize (frame.rs 134-187).  Tag bytes: 43 is the plus sign,
45 the minus sign, 58 the colon, 36 the dollar, 42 the star, 95 the
underscore; 13 10 is CRLF.  The NullBulkString case is modelled from the
spec (section 9, item 2): the RESP2 null bulk, dollar minus one CRLF. -/
def Frame.serialize : Frame → List Nat
  | .Simple s => 43 :: (s ++ [13, 10])
  | .Error s => 45 :: (s ++ [13, 10])
  | .Integer i => 58 :: (intToBytes i ++ [13, 10])
  | .Bulk b => 36 :: (natDigits b.length ++ [13, 10] ++ b ++ [13, 10])
  | .Null => [95, 13, 10]
  | .NullBulkString => [36, 45, 49, 13, 10]
  | .Array xs => 42 :: (natDigits xs.length ++ [13, 10] ++ serializeList xs)

/-- Serialization of the elements of an Array frame, in order
(the for loop of frame.rs 181-183). -/
def serializeList : List Frame → List Nat
  | [] => []
  | f :: fs => f.serialize ++ serializeList fs

end

/-- Parse errors (frame.rs 13-22).  The message payload of Error::Other is
dropped; no theorem depends on it. -/
inductive PErr where
  | Incomplete
  | InvalidDataType (b : Nat)
  | Other
deriving DecidableEq, Repr

/-- The element loop of the Array branch (frame.rs 113-117): parse the given
number of frames in sequence with the supplied parser. -/
def manyLoop (p : List Nat → Except PErr (Frame × List Nat)) :
    Nat → List Nat → Except PErr (List Frame × List Nat)
  | 0, bytes => .ok ([], bytes)
  | n + 1, bytes =>
    match p bytes with
    | .error e => .error e
    | .ok (f, rest) =>
      match manyLoop p n rest with
      | .error e => .error e
      | .ok (fs, rest1) => .ok (f :: fs, rest1)

/-- Frame::parse (frame.rs 36-132) over a byte list, with the consumed
cursor returned as the remaining suffix.  The first argument is fuel for the
recursion; Frame.parse below supplies enough for any input.  Branches follow
the source: simple string, simple error, integer, bulk string (length minus
one is Null; the length is otherwise only used for a capacity hint, the data
line ends at the first CRLF), bulk error, array (length minus one is Null; a
negative length iterates zero times), RESP3 null (a line is consumed and
discarded).  The remaining recognized RESP3 tags (35, 44, 40, 61, 37, 126,
62) reach a todo panic in the source, modelled as Error::Other. -/
def parseF : Nat → List Nat → Except PErr (Frame × List Nat)
  | 0, _ => .error .Other
  | fuel + 1, bytes =>
    match bytes with
    | [] => .error .Incomplete
    | b :: rest =>
      if b = 43 then
        match splitLine rest with
        | none => .error .Incomplete
        | some (line, rest1) =>
          if isValidUtf8 line then .ok (.Simple line, rest1) else .error .Other
      else if b = 45 then
        match splitLine rest with
        | none => .error .Incomplete
        | some (line, rest1) =>
          if isValidUtf8 line then .ok (.Error line, rest1) else .error .Other
      else if b = 58 then
        match splitLine rest with
        | none => .error .Incomplete
        | some (line, rest1) =>
          match parseI64 line with
          | some i => .ok (.Integer i, rest1)
          | none => .error .Other
      else if b = 36 then
        match splitLine rest with
        | none => .error .Incomplete
        | some (lenLine, rest1) =>
          match parseI64 lenLine with
          | none => .error .Other
          | some len =>
            if len = -1 then .ok (.Null, rest1)
            else
              match splitLine rest1 with
              | none => .error .Incomplete
              | some (data, rest2) => .ok (.Bulk data, rest2)
      else if b = 33 then
        match splitLine rest with
        | none => .error .Incomplete
        | some (lenLine, rest1) =>
          match parseI64 lenLine with
          | none => .error .Other
          | some len =>
            if len = -1 then .ok (.Null, rest1)
            else
              match splitLine rest1 with
              | none => .error .Incomplete
              | some (msg, rest2) =>
                if isValidUtf8 msg then .ok (.Error msg, rest2) else .error .Other
      else if b = 42 then
        match splitLine rest with
        | none => .error .Incomplete
        | some (lenLine, rest1) =>
          match parseI64 lenLine with
          | none => .error .Other
          | some len =>
            if len = -1 then .ok (.Null, rest1)
            else
              match manyLoop (fun bs => parseF fuel bs) len.toNat rest1 with
              | .error e => .error e
              | .ok (fs, rest2) => .ok (.Array fs, rest2)
      else if b = 95 then
        match splitLine rest with
        | none => .error .Incomplete
        | some (_, rest1) => .ok (.Null, rest1)
      else if b = 35 ∨ b = 44 ∨ b = 40 ∨ b = 61 ∨ b = 37 ∨ b = 126 ∨ b = 62 then
        .error .Other
      else .error (.InvalidDataType b)

/-- Frame::parse at the top level.  Every recursive call of the source
consumes at least one byte before recursing, so input length plus one is
always enough fuel. -/
def Frame.parse (bytes : List Nat) : Except PErr (Frame × List Nat) :=
  parseF (bytes.length + 1) bytes

mutual

/-- The supported frame taxonomy of claim C1, amended: Simple and Error
payloads are valid UTF-8 with no CR and no LF byte; Integer values lie in the
signed 64-bit range; Bulk payloads contain no CRLF byte pair (the amendment)
and have a length representable in isize; Null is included; NullBulkString is
not part of the taxonomy; Arrays contain well-formed frames and have a length
representable in isize. -/
def Frame.wf : Frame → Bool
  | .Simple s => isValidUtf8 s && s.all (fun b => decide (b ≠ 13) && decide (b ≠ 10))
  | .Error s => isValidUtf8 s && s.all (fun b => decide (b ≠ 13) && decide (b ≠ 10))
  | .Integer i => decide (-(2 ^ 63) ≤ i) && decide (i < 2 ^ 63)
  | .Bulk b => !hasCrlf b && decide (b.length < 2 ^ 63)
  | .Null => true
  | .NullBulkString => false
  | .Array xs => wfList xs && decide (xs.length < 2 ^ 63)

/-- Well-formedness of every element of an array. -/
def wfList : List Frame → Bool
  | [] => true
  | f :: fs => f.wf && wfList fs

end

/-- A stored value (store.rs 234-239): payload bytes, optional expiration
instant and creation instant.  Instants are milliseconds on the monotonic
clock (tokio Instant); every duration the commands construct is a whole
number of milliseconds, so no precision is lost. -/
structure Value where
  data : List Nat
  expires_at : Option Nat
  created_at : Nat
deriving DecidableEq, Repr

/-- Pointwise update of the key map (HashMap::insert / remove). -/
def updateKeys (m : String → Option Value) (k : String) (v : Option Value) :
    String → Option Value :=
  fun k2 => if k2 = k then v else m k2

/-- The store state (store.rs 241-244): the key map and the BTreeSet of
(expires_at, key) pairs.  The set is a duplicate-free list kept sorted by the
lexicographic order the BTreeSet uses. -/
structure StoreState where
  keys : String → Option Value
  ttls : List (Nat × String)

/-- The state a fresh Store starts from (Store::new). -/
def initState : StoreState := ⟨fun _ => none, []⟩

/-- The strict lexicographic order on (Instant, Key) pairs that the BTreeSet
of store.rs uses. -/
def ttlLt (a b : Nat × String) : Prop := a.1 < b.1 ∨ (a.1 = b.1 ∧ a.2 < b.2)

instance : DecidableRel ttlLt := fun a b => by unfold ttlLt; infer_instance

/-- BTreeSet::insert on the ordered (Instant, Key) set: no-op when the pair is
present, otherwise insertion at its lexicographic position. -/
def insertTtl (x : Nat × String) : List (Nat × String) → List (Nat × String)
  | [] => [x]
  | y :: ys =>
    if x = y then y :: ys
    else if ttlLt x y then x :: y :: ys
    else y :: insertTtl x ys

/-- InnerStoreLocked::remove (store.rs 116-127): drop the key entry and, when
it carried a TTL, the exact (expires_at, key) pair; returns the prior value. -/
def StoreState.remove (s : StoreState) (key : String) : Option Value × StoreState :=
  match s.keys key with
  | none => (none, s)
  | some v =>
    match v.expires_at with
    | some e => (some v, ⟨updateKeys s.keys key none, s.ttls.erase (e, key)⟩)
    | none => (some v, ⟨updateKeys s.keys key none, s.ttls⟩)

/-- InnerStoreLocked::set (store.rs 60-72): remove first (clearing any TTL),
preserve created_at when the key existed, insert without expiration. -/
def StoreState.set (s : StoreState) (key : String) (data : List Nat) (now : Nat) :
    StoreState :=
  let r := s.remove key
  let created := (r.1.map (fun v => v.created_at)).getD now
  ⟨updateKeys r.2.keys key (some ⟨data, none, created⟩), r.2.ttls⟩

/-- InnerStoreLocked::set_with_ttl (store.rs 74-95): remove first, preserve
created_at, insert with expiration now + ttl and record the pair in the ttls
set.  The waker notification has no effect on keys or ttls and is omitted. -/
def StoreState.setWithTtl (s : StoreState) (key : String) (data : List Nat)
    (ttl now : Nat) : StoreState :=
  let r := s.remove key
  let created := (r.1.map (fun v => v.created_at)).getD now
  let expires := now + ttl
  ⟨updateKeys r.2.keys key (some ⟨data, some expires, created⟩),
    insertTtl (expires, key) r.2.ttls⟩

/-- InnerStoreLocked::get (store.rs 97-99). -/
def StoreState.get (s : StoreState) (key : String) : Option (List Nat) :=
  (s.keys key).map (fun v => v.data)

/-- InnerStoreLocked::exists (store.rs 139-141). -/
def StoreState.existsKey (s : StoreState) (key : String) : Bool := (s.keys key).isSome

/-- InnerStoreLocked::get_ttl (store.rs 101-114): remaining duration in
milliseconds, zero once expired, none when absent or without TTL. -/
def StoreState.getTtl (s : StoreState) (key : String) (now : Nat) : Option Nat :=
  ((s.keys key).bind (fun v => v.expires_at)).map (fun e => if now < e then e - now else 0)

/-- InnerStoreLocked::remove_ttl (store.rs 129-137): erase the ttls pair of an
existing key with a TTL, then re-set the key to its data (which clears
expires_at and preserves created_at); no-op otherwise. -/
def StoreState.removeTtl (s : StoreState) (key : String) (now : Nat) : StoreState :=
  match s.keys key with
  | some v =>
    match v.expires_at with
    | some e => StoreState.set ⟨s.keys, s.ttls.erase (e, key)⟩ key v.data now
    | none => s
  | none => s

/-- Two's-complement wrap into the signed 64-bit range: the semantics of the
release-mode += on i64 in incr_by (debug builds abort instead). -/
def wrapI64 (n : Int) : Int := (n + 2 ^ 63).emod (2 ^ 64) - 2 ^ 63

/-- Bit length with explicit fuel (the recursion halves, so any fuel above
the value itself is enough). -/
def bitLenAux : Nat → Nat → Nat
  | 0, _ => 0
  | fuel + 1, n => if n = 0 then 0 else bitLenAux fuel (n / 2) + 1

/-- Number of binary digits of a natural number (zero for zero). -/
def bitLen (n : Nat) : Nat := bitLenAux n n

/-- Round a natural number to the nearest 53-bit float significand, ties to
even: the value ToPrimitive::to_f64 produces for a magnitude. -/
def roundF64Nat (m : Nat) : Nat :=
  if m < 2 ^ 53 then m
  else
    let k := bitLen m
    let ulp := 2 ^ (k - 53)
    let q := m / ulp
    let r := m % ulp
    if 2 * r < ulp then q * ulp
    else if ulp < 2 * r then (q + 1) * ulp
    else if q % 2 = 0 then q * ulp else (q + 1) * ulp

/-- The integer an i64 value becomes after to_f64: f64 conversion rounds to
nearest even at 53 significand bits, and the result is always integral, so
fract() is zero and incr_by formats it back with no decimal point. -/
def roundF64Int (n : Int) : Int :=
  if n < 0 then -(roundF64Nat n.natAbs : Int) else (roundF64Nat n.natAbs : Int)

/-- InnerStoreLocked::incr_by (store.rs 155-188) at the integer instantiation
T = R = i64 (the one the INCR/INCRBY/DECR family uses; increments are i64).
Present values are read through str::from_utf8 and str::parse::<i64>; an
absent key counts as zero; the sum wraps (release-mode +=); to_f64 always
succeeds for i64 and is integral, so the value is formatted as a plain
decimal, stored, and re-parsed as the R result — which fails when the f64
rounding pushed the magnitude past the i64 range. -/
def StoreState.incrBy (s : StoreState) (key : String) (increment : Int) (now : Nat) :
    Except (List Nat) Int × StoreState :=
  let errMsg := strBytes "value is not an integer or out of range"
  let parsed : Option Int :=
    match s.get key with
    | some bytes => if isValidUtf8 bytes then parseI64 bytes else none
    | none => some 0
  match parsed with
  | none => (.error errMsg, s)
  | some v0 =>
    let v := wrapI64 (v0 + increment)
    let w := roundF64Int v
    let str := intToBytes w
    let s2 := s.set key str now
    match parseI64 str with
    | some r => (.ok r, s2)
    | none => (.error errMsg, s2)

/-- One iteration of the eviction loop body (store.rs 201-204): remove(&key)
followed by ttls.remove(&(when, key)). -/
def reapStep (s : StoreState) (p : Nat × String) : StoreState :=
  let s1 := (s.remove p.2).2
  ⟨s1.keys, s1.ttls.erase p⟩

/-- InnerStoreLocked::remove_expired_keys (store.rs 190-211): collect the
expired prefix of the ordered set (take_while on instants at most now), then
run the loop body on each pair. -/
def StoreState.reap (s : StoreState) (now : Nat) : StoreState :=
  (s.ttls.takeWhile (fun p => p.1 ≤ now)).foldl reapStep s

/-- The store operations of claim C4, each carrying the clock value at which
it runs. -/
inductive StoreOp where
  | set (key : String) (data : List Nat) (now : Nat)
  | setWithTtl (key : String) (data : List Nat) (ttl now : Nat)
  | remove (key : String)
  | removeTtl (key : String) (now : Nat)
  | incrBy (key : String) (increment : Int) (now : Nat)
  | reap (now : Nat)

/-- Interpretation of a store operation. -/
def applyOp (s : StoreState) : StoreOp → StoreState
  | .set k d n => s.set k d n
  | .setWithTtl k d t n => s.setWithTtl k d t n
  | .remove k => (s.remove k).2
  | .removeTtl k n => s.removeTtl k n
  | .incrBy k i n => (s.incrBy k i n).2
  | .reap n => s.reap n

/-- The state reached by a sequence of store operations from the initial
empty store. -/
def runOps (ops : List StoreOp) : StoreState := ops.foldl applyOp initState

/-- The keys/ttls coupling invariant of claim C4: a pair is in the ttls set
exactly when its key is present with that expiration, and the set is strictly
sorted in the BTreeSet order (hence duplicate-free). -/
def StoreInv (s : StoreState) : Prop :=
  (∀ t k, (t, k) ∈ s.ttls ↔ ∃ v, s.keys k = some v ∧ v.expires_at = some t) ∧
    s.ttls.Pairwise ttlLt

/-- The SET behavior options (set.rs 23-29). -/
inductive SetBehavior where
  | Nx
  | Xx
deriving DecidableEq, Repr

/-- The SET TTL options (set.rs 31-38). -/
inductive SetTtl where
  | Ex (n : Nat)
  | Px (n : Nat)
  | ExAt (n : Nat)
  | PxAt (n : Nat)
  | KeepTtl
deriving DecidableEq, Repr

/-- Ttl::duration (set.rs 40-47) in milliseconds: only Ex uses its argument;
Px, ExAt, PxAt and KeepTtl all fall to the catch-all Duration::from_secs(1). -/
def SetTtl.duration : SetTtl → Nat
  | .Ex s => s * 1000
  | _ => 1000

/-- The parsed SET command (set.rs 13-21). -/
structure SetCmd where
  key : String
  value : List Nat
  ttl : Option SetTtl
  behavior : Option SetBehavior
  getOpt : Bool

/-- Set::exec (set.rs 49-73): the NX/XX guard returns NullBulkString without
writing; otherwise the value is written with set_with_ttl (any TTL option) or
set, and the reply is the prior value (or NullBulkString) under GET, else
Simple OK. -/
def setExec (c : SetCmd) (now : Nat) (s : StoreState) : Frame × StoreState :=
  let value := s.get c.key
  if c.behavior = some .Nx ∧ value.isSome then (Frame.NullBulkString, s)
  else if c.behavior = some .Xx ∧ value.isNone then (Frame.NullBulkString, s)
  else
    let s2 := match c.ttl with
      | some ttl => s.setWithTtl c.key c.value ttl.duration now
      | none => s.set c.key c.value now
    let res := if c.getOpt then (value.map Frame.Bulk).getD Frame.NullBulkString
      else Frame.Simple (strBytes "OK")
    (res, s2)

/-- Incr::exec (incr.rs 17-26): incr_by with increment one; a success is
reported as Simple OK (the numeric result is discarded), a failure as an
Error frame carrying the message. -/
def incrExec (key : String) (now : Nat) (s : StoreState) : Frame × StoreState :=
  match s.incrBy key 1 now with
  | (.ok _, s2) => (Frame.Simple (strBytes "OK"), s2)
  | (.error msg, s2) => (Frame.Error msg, s2)

/-- Command-parser errors (commands/mod.rs 298-311).  The payloads of
InvalidFrame and InvalidUTF8String are dropped; no theorem depends on them. -/
inductive CommandParserError where
  | InvalidFrame
  | UnknownCommand
  | InvalidCommandArgument (command argument : String)
  | InvalidUTF8String
  | EndOfStream
deriving DecidableEq, Repr

/-- CommandParser::next_string (commands/mod.rs 236-254) on one frame:
Simple and Bulk payloads are UTF-8 decoded, other variants are invalid. -/
def nextString1 : Frame → Except CommandParserError String
  | .Simple s =>
    match bytesToString s with
    | some str => .ok str
    | none => .error .InvalidUTF8String
  | .Bulk b =>
    match bytesToString b with
    | some str => .ok str
    | none => .error .InvalidUTF8String
  | _ => .error .InvalidFrame

/-- CommandParser::next_bytes (commands/mod.rs 280-296) on one frame. -/
def nextBytes1 : Frame → Except CommandParserError (List Nat)
  | .Simple s => .ok s
  | .Bulk b => .ok b
  | _ => .error .InvalidFrame

/-- ASCII lower-casing of one character (str::to_lowercase restricted to the
ASCII range, which covers every recognized command name). -/
def lowerChar (c : Char) : Char :=
  if 65 ≤ c.toNat ∧ c.toNat ≤ 90 then Char.ofNat (c.toNat + 32) else c

/-- ASCII lower-casing of a string. -/
def lowerString (s : String) : String := String.mk (s.data.map lowerChar)

/-- CommandParser::parse_command_name (commands/mod.rs 212-227): one frame
consumed, Simple or Bulk decoded and lower-cased. -/
def parseCommandName : List Frame → Except CommandParserError (String × List Frame)
  | [] => .error .EndOfStream
  | f :: rest =>
    match f with
    | .Simple s =>
      match bytesToString s with
      | some str => .ok (lowerString str, rest)
      | none => .error .InvalidUTF8String
    | .Bulk b =>
      match bytesToString b with
      | some str => .ok (lowerString str, rest)
      | none => .error .InvalidUTF8String
    | _ => .error .InvalidFrame

/-- Msetnx::try_from (msetnx.rs 52-77): consume (next_string, next_bytes)
pairs until EndOfStream.  Rust evaluates both calls before matching, and the
EndOfStream arms come before the error arms, so a trailing dangling frame is
silently dropped (arm three fires on the second component). -/
def msetnxTryFrom : List Frame → Except CommandParserError (List (String × List Nat))
  | [] => .ok []
  | [_] => .ok []
  | k :: v :: rest =>
    match nextString1 k, nextBytes1 v with
    | .ok key, .ok val => (msetnxTryFrom rest).map (fun ps => (key, val) :: ps)
    | .error e, _ => .error e
    | _, .error e => .error e

/-- The command variant claim C6 exercises. -/
inductive Command where
  | Msetnx (pairs : List (String × List Nat))
deriving DecidableEq, Repr

/-- Command::try_from (commands/mod.rs 146-205) restricted to the MSETNX
route: a RESP array whose first element names the command, lower-cased, then
routed.  Modelled from the spec: the snapshot's mod.rs predates the MSETNX
command (msetnx.rs and its tests are present but the dispatch arm is not);
spec section 4.E routes each recognized lower-cased name to its schema, so
the arm is name = msetnx to Msetnx::try_from. -/
def commandTryFrom : Frame → Except CommandParserError Command
  | .Array frames =>
    match parseCommandName frames with
    | .error e => .error e
    | .ok (name, rest) =>
      if name = "msetnx" then (msetnxTryFrom rest).map Command.Msetnx
      else .error .UnknownCommand
  | _ => .error .InvalidFrame

/-- Msetnx::exec (msetnx.rs 24-50): empty pair list is an arity error; if any
listed key exists nothing is written and the reply is Integer 0; otherwise
every pair is written with set and the reply is Integer 1. -/
def msetnxExec (pairs : List (String × List Nat)) (now : Nat) (s : StoreState) :
    Frame × StoreState :=
  if pairs = [] then
    (Frame.Error (strBytes "ERR wrong number of arguments for command"), s)
  else if pairs.any (fun p => s.existsKey p.1) then (Frame.Integer 0, s)
  else (Frame.Integer 1, pairs.foldl (fun st p => st.set p.1 p.2 now) s)

/-- The parsed SETRANGE command (setrange.rs 22-27). -/
structure Setrange where
  key : String
  offset : Int
  value : List Nat
deriving DecidableEq, Repr

/-- Setrange::try_from validation (setrange.rs 47-65): after the parser
yields the key, the i64 offset and the value, the offset cast to usize must
be strictly below MAX_OFFSET = 536870911 (2^29 - 1); at or above it the
command is rejected with InvalidCommandArgument. -/
def setrangeTryFrom (key : String) (offset : Int) (value : List Nat) :
    Except CommandParserError Setrange :=
  if 536870911 ≤ usizeOfI64 offset then
    .error (.InvalidCommandArgument "SETRANGE" "offset")
  else .ok ⟨key, offset, value⟩

/-- get_positive_index (getrange.rs 52-59). -/
def getPositiveIndex (strLen index : Int) : Int :=
  if 0 ≤ index then index else strLen - index.natAbs

/-- Getrange::exec (getrange.rs 25-50): absent key replies an empty Bulk; a
present value passes through String::from_utf8(...).unwrap(), modelled as
Option with none for the panic (claim C10); the offsets are resolved against
the byte length of the string, and the reply collects
chars().take((end + 1) as usize).skip(start as usize). -/
def getrangeExec (key : String) (start endIdx : Int) (s : StoreState) : Option Frame :=
  match s.get key with
  | none => some (Frame.Bulk [])
  | some bytes =>
    match utf8Decode bytes with
    | none => none
    | some chars =>
      let len : Int := utf8ByteLen chars
      let start2 := getPositiveIndex len start
      let end2 := getPositiveIndex len endIdx
      let subset := (chars.take (usizeOfI64 (end2 + 1))).drop (usizeOfI64 start2)
      some (Frame.Bulk (encodeChars subset))

/-- Ttl::exec (commands/ttl.rs 17-27): minus one for a present key, minus two
for an absent one, overridden by the whole seconds of the remaining duration
whenever get_ttl yields one. -/
def ttlExec (key : String) (now : Nat) (s : StoreState) : Frame :=
  let base : Int := if s.existsKey key then -1 else -2
  Frame.Integer (((s.getTtl key now).map (fun d => ((d / 1000 : Nat) : Int))).getD base)

theorem hasCrlf_eq_false {pl : List Nat} (h : ∀ b ∈ pl, b ≠ 13) : hasCrlf pl = false := by
  induction pl with
  | nil => rfl
  | cons b rest ih =>
    have hb : b ≠ 13 := h b (by simp)
    simp [hasCrlf, hb, ih (fun x hx => h x (by simp [hx]))]

theorem splitLine_append {pl : List Nat} (rest : List Nat) (h : hasCrlf pl = false) :
    splitLine (pl ++ 13 :: 10 :: rest) = some (pl, rest) := by
  induction pl with
  | nil => simp [splitLine]
  | cons b pl ih =>
    have h2 : hasCrlf pl = false := by
      simp only [hasCrlf, Bool.or_eq_false_iff] at h
      exact h.2
    have hcond : ¬(b = 13 ∧ (pl ++ 13 :: 10 :: rest).head? = some 10) := by
      rintro ⟨hb, hh⟩
      cases pl with
      | nil => simp at hh
      | cons c pl2 =>
        simp only [List.cons_append, List.head?_cons, Option.some.injEq] at hh
        simp [hasCrlf, hb, hh] at h
    simp only [List.cons_append, splitLine, List.append_eq, if_neg hcond, ih h2]
    rfl

theorem digitsVal_append (l1 l2 : List Nat) :
    ∀ acc, digitsVal acc (l1 ++ l2) = (digitsVal acc l1).bind fun m => digitsVal m l2 := by
  induction l1 with
  | nil => intro acc; simp [digitsVal]
  | cons b l1 ih =>
    intro acc
    by_cases hb : isDigit b = true
    · simp [digitsVal, hb, ih]
    · simp [digitsVal, hb]

theorem natDigitsAux_spec {fuel n : Nat} (h : n < fuel) :
    natDigitsAux fuel n ≠ [] ∧ (∀ b ∈ natDigitsAux fuel n, isDigit b = true) ∧
      ∀ acc, digitsVal acc (natDigitsAux fuel n) =
        some (acc * 10 ^ (natDigitsAux fuel n).length + n) := by
  induction fuel generalizing n with
  | zero => omega
  | succ fuel ih =>
    by_cases hn : n < 10
    · refine ⟨by simp [natDigitsAux, hn], ?_, ?_⟩
      · intro b hb
        simp only [natDigitsAux, if_pos hn, List.mem_singleton] at hb
        simp [hb, isDigit]
        omega
      · intro acc
        have hd : isDigit (48 + n) = true := by simp [isDigit]; omega
        simp [natDigitsAux, hn, digitsVal, hd]
    · have hrec : n / 10 < fuel := by
        have h1 : n / 10 < n := Nat.div_lt_self (by omega) (by omega)
        omega
      obtain ⟨hne, hdig, hval⟩ := ih hrec
      have hlast : isDigit (48 + n % 10) = true := by
        have := Nat.mod_lt n (show 0 < 10 by omega)
        simp [isDigit]; omega
      refine ⟨by simp [natDigitsAux, hn], ?_, ?_⟩
      · intro b hb
        simp only [natDigitsAux, if_neg hn, List.mem_append, List.mem_singleton] at hb
        rcases hb with hb | hb
        · exact hdig b hb
        · rw [hb]; exact hlast
      · intro acc
        simp only [natDigitsAux, if_neg hn, digitsVal_append, hval, Option.some_bind,
          digitsVal, if_pos hlast, List.length_append, List.length_singleton]
        congr 1
        have hmod := Nat.div_add_mod n 10
        ring_nf
        omega

theorem natDigits_spec (n : Nat) :
    natDigits n ≠ [] ∧ (∀ b ∈ natDigits n, isDigit b = true) ∧
      digitsVal 0 (natDigits n) = some n := by
  obtain ⟨h1, h2, h3⟩ := natDigitsAux_spec (show n < n + 1 by omega)
  exact ⟨h1, h2, by simpa using h3 0⟩

theorem parseI64Core_natDigits {n : Nat} (h : n ≤ 2 ^ 63 - 1) :
    parseI64Core false (natDigits n) = some (n : Int) := by
  obtain ⟨h1, _, h3⟩ := natDigits_spec n
  have hb : n ≤ 9223372036854775807 := by omega
  simp [parseI64Core, h1, h3, hb]

theorem parseI64_natDigits {n : Nat} (h : n ≤ 2 ^ 63 - 1) :
    parseI64 (natDigits n) = some (n : Int) := by
  obtain ⟨h1, h2, _⟩ := natDigits_spec n
  obtain ⟨d, ds, hd⟩ : ∃ d ds, natDigits n = d :: ds := by
    cases hnd : natDigits n with
    | nil => exact absurd hnd h1
    | cons d ds => exact ⟨d, ds, rfl⟩
  have hdig : isDigit d = true := h2 d (by rw [hd]; simp)
  have h43 : d ≠ 43 := by simp [isDigit] at hdig; omega
  have h45 : d ≠ 45 := by simp [isDigit] at hdig; omega
  rw [hd, parseI64, if_neg h43, if_neg h45, ← hd]
  exact parseI64Core_natDigits h

theorem parseI64_intToBytes {i : Int} (h1 : -(2 ^ 63) ≤ i) (h2 : i < 2 ^ 63) :
    parseI64 (intToBytes i) = some i := by
  by_cases hneg : i < 0
  · have hle : (-i).toNat ≤ 2 ^ 63 := by omega
    obtain ⟨hne, _, hval⟩ := natDigits_spec (-i).toNat
    rw [intToBytes, if_pos hneg, parseI64, if_neg (by omega), if_pos rfl, parseI64Core,
      if_neg hne, hval]
    simp only [zero_mul, zero_add]
    rw [if_pos hle]
    have hcast : (((-i).toNat : Nat) : Int) = -i := Int.toNat_of_nonneg (by omega)
    rw [hcast]
    simp
  · rw [intToBytes, if_neg hneg]
    have := @parseI64_natDigits i.toNat (by omega)
    rw [this]
    congr 1
    omega

theorem natDigits_ne_13 (n : Nat) : ∀ b ∈ natDigits n, b ≠ 13 := by
  intro b hb
  have := (natDigits_spec n).2.1 b hb
  simp [isDigit] at this
  omega

theorem hasCrlf_natDigits (n : Nat) : hasCrlf (natDigits n) = false :=
  hasCrlf_eq_false (natDigits_ne_13 n)

theorem hasCrlf_intToBytes (i : Int) : hasCrlf (intToBytes i) = false := by
  apply hasCrlf_eq_false
  intro b hb
  rw [intToBytes] at hb
  by_cases hneg : i < 0
  · rw [if_pos hneg] at hb
    rcases List.mem_cons.mp hb with hb | hb
    · omega
    · exact natDigits_ne_13 _ b hb
  · rw [if_neg hneg] at hb
    exact natDigits_ne_13 _ b hb

theorem wfList_mem {xs : List Frame} (h : wfList xs = true) {f : Frame} (hf : f ∈ xs) :
    f.wf = true := by
  induction xs with
  | nil => cases hf
  | cons g gs ih =>
    rw [wfList, Bool.and_eq_true] at h
    rcases List.mem_cons.mp hf with hf | hf
    · rw [hf]; exact h.1
    · exact ih h.2 hf

theorem serLen_mem {xs : List Frame} {f : Frame} (hf : f ∈ xs) :
    (Frame.serialize f).length ≤ (serializeList xs).length := by
  induction xs with
  | nil => cases hf
  | cons g gs ih =>
    rw [serializeList, List.length_append]
    rcases List.mem_cons.mp hf with hf | hf
    · rw [hf]; omega
    · have := ih hf; omega

theorem serLen_array {xs : List Frame} :
    (serializeList xs).length + 4 ≤ (Frame.serialize (.Array xs)).length := by
  rw [Frame.serialize]
  have := (natDigits_spec xs.length).1
  have hlen : 1 ≤ (natDigits xs.length).length := by
    cases h : natDigits xs.length with
    | nil => exact absurd h this
    | cons a l => simp
  simp only [List.length_cons, List.length_append]
  omega

theorem manyLoop_ser (p : List Nat → Except PErr (Frame × List Nat)) :
    ∀ (xs : List Frame) (rest : List Nat),
      (∀ f ∈ xs, ∀ r, p (Frame.serialize f ++ r) = .ok (f, r)) →
      manyLoop p xs.length (serializeList xs ++ rest) = .ok (xs, rest) := by
  intro xs
  induction xs with
  | nil => intro rest _; simp [serializeList, manyLoop]
  | cons f fs ih =>
    intro rest hp
    have hf := hp f (by simp) (serializeList fs ++ rest)
    simp only [List.length_cons, serializeList, List.append_assoc, manyLoop, hf,
      ih rest (fun g hg r => hp g (by simp [hg]) r)]

theorem parseF_ser :
    ∀ (fuel : Nat) (f : Frame) (rest : List Nat), f.wf = true →
      (Frame.serialize f).length < fuel →
      parseF fuel (Frame.serialize f ++ rest) = .ok (f, rest) := by
  intro fuel
  induction fuel with
  | zero => intro f rest _ hlen; omega
  | succ fuel ih =>
    intro f rest hwf hlen
    cases f with
    | Simple s =>
      rw [Frame.wf, Bool.and_eq_true] at hwf
      have h13 : hasCrlf s = false := by
        apply hasCrlf_eq_false
        intro b hb
        have := List.all_eq_true.mp hwf.2 b hb
        simp at this
        exact this.1
      rw [Frame.serialize]
      simp only [List.cons_append, List.append_assoc, List.nil_append]
      simp [parseF, splitLine_append rest h13, hwf.1]
    | Error s =>
      rw [Frame.wf, Bool.and_eq_true] at hwf
      have h13 : hasCrlf s = false := by
        apply hasCrlf_eq_false
        intro b hb
        have := List.all_eq_true.mp hwf.2 b hb
        simp at this
        exact this.1
      rw [Frame.serialize]
      simp only [List.cons_append, List.append_assoc, List.nil_append]
      simp [parseF, splitLine_append rest h13, hwf.1]
    | Integer i =>
      rw [Frame.wf, Bool.and_eq_true, decide_eq_true_eq, decide_eq_true_eq] at hwf
      rw [Frame.serialize]
      simp only [List.cons_append, List.append_assoc, List.nil_append]
      simp [parseF, splitLine_append rest (hasCrlf_intToBytes i),
        parseI64_intToBytes hwf.1 hwf.2]
    | Bulk b =>
      rw [Frame.wf, Bool.and_eq_true, Bool.not_eq_true', decide_eq_true_eq] at hwf
      rw [Frame.serialize]
      simp only [List.cons_append, List.append_assoc, List.nil_append]
      have hlen63 : b.length ≤ 2 ^ 63 - 1 := by omega
      have hne : ((b.length : Nat) : Int) ≠ -1 := by omega
      simp [parseF, splitLine_append _ (hasCrlf_natDigits b.length),
        parseI64_natDigits hlen63, hne, splitLine_append rest hwf.1]
    | Null =>
      rw [Frame.serialize]
      simp [parseF, splitLine]
    | NullBulkString => simp [Frame.wf] at hwf
    | Array xs =>
      rw [Frame.wf, Bool.and_eq_true, decide_eq_true_eq] at hwf
      have hxs : xs.length ≤ 2 ^ 63 - 1 := by omega
      have hmany :
          manyLoop (fun bs => parseF fuel bs) xs.length (serializeList xs ++ rest) =
            .ok (xs, rest) := by
        apply manyLoop_ser
        intro g hg r
        apply ih g r (wfList_mem hwf.1 hg)
        have h1 := serLen_mem hg
        have h2 := @serLen_array xs
        rw [Frame.serialize] at hlen
        rw [Frame.serialize] at h2
        omega
      have hne : ((xs.length : Nat) : Int) ≠ -1 := by omega
      rw [Frame.serialize]
      simp only [List.cons_append, List.append_assoc, List.nil_append]
      simp [parseF, splitLine_append _ (hasCrlf_natDigits xs.length),
        parseI64_natDigits hxs, hne, Int.toNat_natCast, hmany]

/-- C1, amended.  For every frame of the supported taxonomy whose Bulk
payloads (the amendment) contain no CRLF byte pair, parsing the serialization
returns exactly the frame and consumes the whole serialization.  The original
claim, which admits arbitrary Bulk bytes including CRLF, is false: the data
line of a bulk string is read up to the first CRLF, not up to the declared
length (see the counterexample). -/
theorem C1_parse_serialize_roundtrip (f : Frame) (hf : f.wf = true) :
    Frame.parse (Frame.serialize f) = .ok (f, []) := by
  rw [Frame.parse]
  have h := parseF_ser ((Frame.serialize f).length + 1) f [] hf (by omega)
  simpa using h

/-- C1 counterexample: the Bulk frame holding exactly the two bytes CR LF
serializes to dollar two CRLF CR LF CRLF, and parsing that yields the empty
Bulk with two bytes left unconsumed, not the original frame. -/
theorem C1_counterexample_bulk_crlf :
    Frame.parse (Frame.serialize (.Bulk [13, 10])) = .ok (.Bulk [], [13, 10]) ∧
      Frame.Bulk [] ≠ Frame.Bulk [13, 10] := by
  constructor
  · have hser : Frame.serialize (.Bulk [13, 10]) = [36, 50, 13, 10, 13, 10, 13, 10] := by
      simp [Frame.serialize, natDigits, natDigitsAux]
    rw [hser]
    rfl
  · simp

/-- C1 witness: the round trip at a concrete nested frame. -/
theorem C1_roundtrip_witness :
    Frame.parse (Frame.serialize (.Array [.Simple (strBytes "OK"), .Bulk [97, 13],
        .Integer (-5), .Null])) =
      .ok (.Array [.Simple (strBytes "OK"), .Bulk [97, 13], .Integer (-5), .Null], []) :=
  C1_parse_serialize_roundtrip _ (by simp only [Frame.wf, wfList]; decide)

theorem keys_mk (m : String → Option Value) (l : List (Nat × String)) :
    (StoreState.mk m l).keys = m := rfl

theorem ttls_mk (m : String → Option Value) (l : List (Nat × String)) :
    (StoreState.mk m l).ttls = l := rfl

theorem ttlLt_irrefl (a : Nat × String) : ¬ ttlLt a a := by
  unfold ttlLt
  simp

theorem ttlLt_trans {a b c : Nat × String} (h1 : ttlLt a b) (h2 : ttlLt b c) : ttlLt a c := by
  unfold ttlLt at h1 h2 ⊢
  rcases h1 with h1 | ⟨h1e, h1s⟩ <;> rcases h2 with h2 | ⟨h2e, h2s⟩
  · exact Or.inl (by omega)
  · exact Or.inl (by omega)
  · exact Or.inl (by omega)
  · exact Or.inr ⟨by omega, lt_trans h1s h2s⟩

theorem ttlLt_total {a b : Nat × String} (hne : a ≠ b) : ttlLt a b ∨ ttlLt b a := by
  unfold ttlLt
  rcases lt_trichotomy a.1 b.1 with h | h | h
  · exact Or.inl (Or.inl h)
  · rcases lt_trichotomy a.2 b.2 with h2 | h2 | h2
    · exact Or.inl (Or.inr ⟨h, h2⟩)
    · exact absurd (Prod.ext h h2) hne
    · exact Or.inr (Or.inr ⟨h.symm, h2⟩)
  · exact Or.inr (Or.inl h)

theorem nodup_of_pairwise_ttlLt {l : List (Nat × String)} (h : l.Pairwise ttlLt) :
    l.Nodup :=
  h.imp (fun hab => by rintro rfl; exact ttlLt_irrefl _ hab)

theorem updateKeys_self (m : String → Option Value) (k : String) (v : Option Value) :
    updateKeys m k v k = v := by simp [updateKeys]

theorem updateKeys_ne (m : String → Option Value) (k : String) (v : Option Value)
    {k2 : String} (h : k2 ≠ k) : updateKeys m k v k2 = m k2 := by simp [updateKeys, h]

theorem insertTtl_mem (x a : Nat × String) (l : List (Nat × String)) :
    a ∈ insertTtl x l ↔ a = x ∨ a ∈ l := by
  induction l with
  | nil => simp [insertTtl]
  | cons y ys ih =>
    rw [insertTtl]
    by_cases hxy : x = y
    · subst hxy
      rw [if_pos rfl]
      simp only [List.mem_cons]
      tauto
    · rw [if_neg hxy]
      by_cases hlt : ttlLt x y
      · rw [if_pos hlt]
        simp only [List.mem_cons]
      · rw [if_neg hlt]
        simp only [List.mem_cons, ih]
        tauto

theorem insertTtl_pairwise {x : Nat × String} {l : List (Nat × String)}
    (h : l.Pairwise ttlLt) : (insertTtl x l).Pairwise ttlLt := by
  induction l with
  | nil => simp [insertTtl]
  | cons y ys ih =>
    rw [List.pairwise_cons] at h
    rw [insertTtl]
    by_cases hxy : x = y
    · subst hxy
      rw [if_pos rfl, List.pairwise_cons]
      exact h
    · rw [if_neg hxy]
      by_cases hlt : ttlLt x y
      · rw [if_pos hlt, List.pairwise_cons]
        constructor
        · intro a ha
          rcases List.mem_cons.mp ha with ha | ha
          · rw [ha]; exact hlt
          · exact ttlLt_trans hlt (h.1 a ha)
        · rw [List.pairwise_cons]
          exact h
      · rw [if_neg hlt, List.pairwise_cons]
        have hyx : ttlLt y x := by
          rcases ttlLt_total hxy with hc | hc
          · exact absurd hc hlt
          · exact hc
        constructor
        · intro a ha
          rcases (insertTtl_mem x a ys).mp ha with ha | ha
          · rw [ha]; exact hyx
          · exact h.1 a ha
        · exact ih h.2


theorem remove_spec {s : StoreState} (h : StoreInv s) (k : String) :
    StoreInv (s.remove k).2 ∧ (s.remove k).2.keys k = none ∧
      (∀ k2, k2 ≠ k → (s.remove k).2.keys k2 = s.keys k2) ∧
      ∀ t, (t, k) ∉ (s.remove k).2.ttls := by
  obtain ⟨hiff, hsort⟩ := h
  have hnd := nodup_of_pairwise_ttlLt hsort
  cases hk : s.keys k with
  | none =>
    have hres : s.remove k = (none, s) := by simp [StoreState.remove, hk]
    rw [hres]
    refine ⟨⟨hiff, hsort⟩, hk, fun _ _ => rfl, ?_⟩
    intro t ht
    obtain ⟨v, hv, _⟩ := (hiff t k).mp ht
    rw [hk] at hv
    cases hv
  | some v =>
    have hmemk : ∀ t, (t, k) ∈ s.ttls → v.expires_at = some t := by
      intro t ht
      obtain ⟨w, hw, hwe⟩ := (hiff t k).mp ht
      rw [hk] at hw
      cases hw
      exact hwe
    cases hexp : v.expires_at with
    | none =>
      have hres : s.remove k = (some v, ⟨updateKeys s.keys k none, s.ttls⟩) := by
        simp [StoreState.remove, hk, hexp]
      rw [hres]
      simp only [StoreInv, keys_mk, ttls_mk]
      refine ⟨⟨?_, hsort⟩, updateKeys_self _ _ _,
        fun k2 h2 => updateKeys_ne _ _ _ h2, ?_⟩
      · intro t k2
        by_cases hkk : k2 = k
        · subst hkk
          constructor
          · intro ht
            have hc := hmemk t ht
            rw [hexp] at hc
            cases hc
          · rintro ⟨w, hw, _⟩
            rw [updateKeys_self] at hw
            cases hw
        · rw [updateKeys_ne _ _ _ hkk]
          exact hiff t k2
      · intro t ht
        have hc := hmemk t ht
        rw [hexp] at hc
        cases hc
    | some e =>
      have hres : s.remove k =
          (some v, ⟨updateKeys s.keys k none, s.ttls.erase (e, k)⟩) := by
        simp [StoreState.remove, hk, hexp]
      rw [hres]
      simp only [StoreInv, keys_mk, ttls_mk]
      have hsort2 : (s.ttls.erase (e, k)).Pairwise ttlLt :=
        List.Pairwise.sublist (s.ttls.erase_sublist (e, k)) hsort
      refine ⟨⟨?_, hsort2⟩, updateKeys_self _ _ _,
        fun k2 h2 => updateKeys_ne _ _ _ h2, ?_⟩
      · intro t k2
        by_cases hkk : k2 = k
        · subst hkk
          constructor
          · intro ht
            have hmem := (hnd.mem_erase_iff).mp ht
            have hc := hmemk t hmem.2
            rw [hexp] at hc
            cases hc
            exact absurd rfl hmem.1
          · rintro ⟨w, hw, _⟩
            rw [updateKeys_self] at hw
            cases hw
        · rw [updateKeys_ne _ _ _ hkk]
          constructor
          · intro ht
            exact (hiff t k2).mp ((hnd.mem_erase_iff).mp ht).2
          · intro hw
            rw [hnd.mem_erase_iff]
            refine ⟨?_, (hiff t k2).mpr hw⟩
            intro hc
            cases hc
            exact hkk rfl
      · intro t ht
        have hmem := (hnd.mem_erase_iff).mp ht
        have hc := hmemk t hmem.2
        rw [hexp] at hc
        cases hc
        exact absurd rfl hmem.1

theorem set_spec {s : StoreState} (h : StoreInv s) (k : String) (d : List Nat) (n : Nat) :
    StoreInv (s.set k d n) := by
  obtain ⟨⟨hiff, hsort⟩, hknone, hkne, hnot⟩ := remove_spec h k
  have hset : s.set k d n = ⟨updateKeys (s.remove k).2.keys k
      (some ⟨d, none, ((s.remove k).1.map (fun v => v.created_at)).getD n⟩),
      (s.remove k).2.ttls⟩ := rfl
  rw [hset]
  simp only [StoreInv, keys_mk, ttls_mk]
  refine ⟨?_, hsort⟩
  intro t k2
  by_cases hkk : k2 = k
  · subst hkk
    constructor
    · intro ht
      exact absurd ht (hnot t)
    · rintro ⟨w, hw, hwe⟩
      rw [updateKeys_self] at hw
      cases hw
      cases hwe
  · rw [updateKeys_ne _ _ _ hkk]
    exact hiff t k2

theorem setWithTtl_spec {s : StoreState} (h : StoreInv s) (k : String) (d : List Nat)
    (ttl n : Nat) : StoreInv (s.setWithTtl k d ttl n) := by
  obtain ⟨⟨hiff, hsort⟩, hknone, hkne, hnot⟩ := remove_spec h k
  have hset : s.setWithTtl k d ttl n = ⟨updateKeys (s.remove k).2.keys k
      (some ⟨d, some (n + ttl), ((s.remove k).1.map (fun v => v.created_at)).getD n⟩),
      insertTtl (n + ttl, k) (s.remove k).2.ttls⟩ := rfl
  rw [hset]
  simp only [StoreInv, keys_mk, ttls_mk]
  refine ⟨?_, insertTtl_pairwise hsort⟩
  intro t k2
  rw [insertTtl_mem]
  by_cases hkk : k2 = k
  · subst hkk
    constructor
    · intro ht
      rcases ht with ht | ht
      · cases ht
        exact ⟨_, updateKeys_self _ _ _, rfl⟩
      · exact absurd ht (hnot t)
    · rintro ⟨w, hw, hwe⟩
      rw [updateKeys_self] at hw
      cases hw
      simp only [Option.some.injEq] at hwe
      left
      rw [hwe]
  · constructor
    · intro ht
      rcases ht with ht | ht
      · cases ht
        exact absurd rfl hkk
      · rw [updateKeys_ne _ _ _ hkk]
        exact (hiff t k2).mp ht
    · intro hw
      rw [updateKeys_ne _ _ _ hkk] at hw
      right
      exact (hiff t k2).mpr hw

theorem removeTtl_spec {s : StoreState} (h : StoreInv s) (k : String) (n : Nat) :
    StoreInv (s.removeTtl k n) := by
  obtain ⟨hiff, hsort⟩ := h
  have hnd := nodup_of_pairwise_ttlLt hsort
  cases hk : s.keys k with
  | none =>
    have hres : s.removeTtl k n = s := by simp [StoreState.removeTtl, hk]
    rw [hres]
    exact ⟨hiff, hsort⟩
  | some v =>
    cases hexp : v.expires_at with
    | none =>
      have hres : s.removeTtl k n = s := by simp [StoreState.removeTtl, hk, hexp]
      rw [hres]
      exact ⟨hiff, hsort⟩
    | some e =>
      have hnd1 : (s.ttls.erase (e, k)).Nodup := hnd.erase _
      have hrem : StoreState.remove ⟨s.keys, s.ttls.erase (e, k)⟩ k =
          (some v, ⟨updateKeys s.keys k none, (s.ttls.erase (e, k)).erase (e, k)⟩) := by
        simp [StoreState.remove, hk, hexp]
      have hres : s.removeTtl k n = ⟨updateKeys (updateKeys s.keys k none) k
          (some ⟨v.data, none, v.created_at⟩), (s.ttls.erase (e, k)).erase (e, k)⟩ := by
        have hstep : s.removeTtl k n = StoreState.set ⟨s.keys, s.ttls.erase (e, k)⟩ k v.data n := by
          simp [StoreState.removeTtl, hk, hexp]
        rw [hstep, StoreState.set, hrem]
        rfl
      rw [hres]
      simp only [StoreInv, keys_mk, ttls_mk]
      constructor
      · intro t k2
        by_cases hkk : k2 = k
        · subst hkk
          constructor
          · intro ht
            have h1 := (hnd1.mem_erase_iff).mp ht
            have h2 := (hnd.mem_erase_iff).mp h1.2
            obtain ⟨w, hw, hwe⟩ := (hiff t _).mp h2.2
            rw [hk] at hw
            cases hw
            rw [hexp] at hwe
            cases hwe
            exact absurd rfl h2.1
          · rintro ⟨w, hw, hwe⟩
            rw [updateKeys_self] at hw
            cases hw
            cases hwe
        · rw [updateKeys_ne _ _ _ hkk, updateKeys_ne _ _ _ hkk]
          constructor
          · intro ht
            have h1 := (hnd1.mem_erase_iff).mp ht
            have h2 := (hnd.mem_erase_iff).mp h1.2
            exact (hiff t k2).mp h2.2
          · intro hw
            have hne : (t, k2) ≠ (e, k) := by
              intro hc
              cases hc
              exact hkk rfl
            rw [hnd1.mem_erase_iff, hnd.mem_erase_iff]
            exact ⟨hne, hne, (hiff t k2).mpr hw⟩
      · exact List.Pairwise.sublist
          (((s.ttls.erase (e, k)).erase_sublist (e, k)).trans
            (s.ttls.erase_sublist (e, k))) hsort

theorem incrBy_state {s : StoreState} {k : String} {i : Int} {n : Nat} :
    (s.incrBy k i n).2 = s ∨ ∃ d, (s.incrBy k i n).2 = s.set k d n := by
  unfold StoreState.incrBy
  repeat first
  | exact Or.inl rfl
  | exact Or.inr ⟨_, rfl⟩
  | split
  | dsimp only

theorem incrBy_spec {s : StoreState} (h : StoreInv s) (k : String) (i : Int) (n : Nat) :
    StoreInv (s.incrBy k i n).2 := by
  rcases @incrBy_state s k i n with hs | ⟨d, hs⟩
  · rw [hs]; exact h
  · rw [hs]; exact set_spec h k d n

theorem reapStep_spec {s : StoreState} (h : StoreInv s) (p : Nat × String) :
    StoreInv (reapStep s p) := by
  obtain ⟨⟨hiff, hsort⟩, hknone, hkne, hnot⟩ := remove_spec h p.2
  unfold reapStep
  dsimp only
  have hpnot : p ∉ (s.remove p.2).2.ttls := by
    intro hc
    exact hnot p.1 hc
  simp only [StoreInv, keys_mk, ttls_mk, List.erase_of_not_mem hpnot]
  exact ⟨hiff, hsort⟩

theorem reap_spec {s : StoreState} (h : StoreInv s) (now : Nat) :
    StoreInv (s.reap now) := by
  unfold StoreState.reap
  generalize (s.ttls.takeWhile fun p => p.1 ≤ now) = l
  induction l generalizing s with
  | nil => exact h
  | cons p ps ih => exact ih (reapStep_spec h p)

theorem applyOp_spec {s : StoreState} (h : StoreInv s) (op : StoreOp) :
    StoreInv (applyOp s op) := by
  cases op with
  | set k d n => exact set_spec h k d n
  | setWithTtl k d t n => exact setWithTtl_spec h k d t n
  | remove k => exact (remove_spec h k).1
  | removeTtl k n => exact removeTtl_spec h k n
  | incrBy k i n => exact incrBy_spec h k i n
  | reap n => exact reap_spec h n

theorem storeInv_init : StoreInv initState := by
  constructor
  · intro t k
    simp [initState]
  · simp [initState]

theorem storeInv_runOps (ops : List StoreOp) : StoreInv (runOps ops) := by
  unfold runOps
  have hgen : ∀ (l : List StoreOp) (s : StoreState), StoreInv s →
      StoreInv (l.foldl applyOp s) := by
    intro l
    induction l with
    | nil => intro s hs; exact hs
    | cons op l ih =>
      intro s hs
      exact ih _ (applyOp_spec hs op)
  exact hgen ops initState storeInv_init

theorem length_filter_le_one {α : Type} [DecidableEq α] {l : List α} {pr : α → Bool}
    (hnd : l.Nodup) (huniq : ∀ a b, a ∈ l → b ∈ l → pr a = true → pr b = true → a = b) :
    (l.filter pr).length ≤ 1 := by
  cases hf : l.filter pr with
  | nil => simp
  | cons a tl =>
    cases tl with
    | nil => simp
    | cons b tl2 =>
      exfalso
      have hnf : (l.filter pr).Nodup := hnd.filter pr
      rw [hf] at hnf
      have ha : a ∈ l.filter pr := by rw [hf]; simp
      have hb : b ∈ l.filter pr := by rw [hf]; simp
      have hab : a = b :=
        huniq a b (List.mem_of_mem_filter ha) (List.mem_of_mem_filter hb)
          (List.of_mem_filter ha) (List.of_mem_filter hb)
      rw [List.nodup_cons] at hnf
      exact hnf.1 (by rw [hab]; simp)

/-- C4: in every reachable store state (any sequence of set, set_with_ttl,
remove, remove_ttl, incr_by and reaper executions from the empty store), a
key is stored with expires_at = Some t exactly when the pair (t, key) is in
the ttls set, and each key occurs in at most one ttls entry. -/
theorem C4_store_ttl_invariant (ops : List StoreOp) :
    (∀ t k, (t, k) ∈ (runOps ops).ttls ↔
      ∃ v, (runOps ops).keys k = some v ∧ v.expires_at = some t) ∧
    ∀ k, ((runOps ops).ttls.filter (fun p => p.2 == k)).length ≤ 1 := by
  obtain ⟨hiff, hsort⟩ := storeInv_runOps ops
  refine ⟨hiff, ?_⟩
  intro k
  apply length_filter_le_one (nodup_of_pairwise_ttlLt hsort)
  intro a b ha hb hpa hpb
  have hak : a.2 = k := by simpa using hpa
  have hbk : b.2 = k := by simpa using hpb
  obtain ⟨va, hva, hvae⟩ := (hiff a.1 a.2).mp (by simpa using ha)
  obtain ⟨vb, hvb, hvbe⟩ := (hiff b.1 b.2).mp (by simpa using hb)
  rw [hak] at hva
  rw [hbk] at hvb
  rw [hva] at hvb
  injection hvb with hvv
  rw [← hvv] at hvbe
  rw [hvae] at hvbe
  injection hvbe with h1
  exact Prod.ext h1 (hak.trans hbk.symm)

/-- C4 witness: the invariant read back at a concrete operation sequence. -/
theorem C4_invariant_witness :
    (5000, "a") ∈ (runOps [.setWithTtl "a" [49] 5000 0]).ttls ∧
      ((runOps [.setWithTtl "a" [49] 5000 0]).ttls.filter
        (fun p => p.2 == "a")).length ≤ 1 := by
  have h := C4_store_ttl_invariant [.setWithTtl "a" [49] 5000 0]
  refine ⟨(h.1 5000 "a").mpr ⟨⟨[49], some 5000, 0⟩, by decide, rfl⟩, h.2 "a"⟩

theorem remove_keys_ne (s : StoreState) (k : String) {k2 : String} (h : k2 ≠ k) :
    (s.remove k).2.keys k2 = s.keys k2 := by
  cases hk : s.keys k with
  | none => simp [StoreState.remove, hk]
  | some v =>
    cases hexp : v.expires_at with
    | none => simp [StoreState.remove, hk, hexp, updateKeys, h]
    | some e => simp [StoreState.remove, hk, hexp, updateKeys, h]

theorem keys_set_ne (s : StoreState) (k : String) (d : List Nat) (n : Nat) {k2 : String}
    (h : k2 ≠ k) : (s.set k d n).keys k2 = s.keys k2 := by
  have hset : s.set k d n = ⟨updateKeys (s.remove k).2.keys k
      (some ⟨d, none, ((s.remove k).1.map (fun v => v.created_at)).getD n⟩),
      (s.remove k).2.ttls⟩ := rfl
  rw [hset, keys_mk, updateKeys_ne _ _ _ h, remove_keys_ne s k h]

theorem get_set_self (s : StoreState) (k : String) (d : List Nat) (n : Nat) :
    (s.set k d n).get k = some d := by
  have hset : s.set k d n = ⟨updateKeys (s.remove k).2.keys k
      (some ⟨d, none, ((s.remove k).1.map (fun v => v.created_at)).getD n⟩),
      (s.remove k).2.ttls⟩ := rfl
  rw [StoreState.get, hset, keys_mk, updateKeys_self]
  rfl

/-- C2: the claim states that EX n yields a relative TTL of n seconds, PX n
of n milliseconds, EXAT and PXAT absolute instants, and KEEPTTL retains the
existing expires_at.  The code implements only the EX arm: Ttl::duration
sends every other option through the catch-all Duration::from_secs(1), and
Set::exec passes the result to set_with_ttl unconditionally, so PX 5000
stores now + 1s and KEEPTTL replaces an existing expiration with now + 1s,
contradicting the KeepTtl variant's own doc comment. -/
theorem C2_ttl_duration_stub :
    SetTtl.duration (.Ex 10) = 10000 ∧
    SetTtl.duration (.Px 5000) = 1000 ∧
    SetTtl.duration (.ExAt 1700000000) = 1000 ∧
    SetTtl.duration (.PxAt 1700000000000) = 1000 ∧
    SetTtl.duration .KeepTtl = 1000 ∧
    (setExec ⟨"k", [118], some (.Px 5000), none, false⟩ 0 initState).2.keys "k" =
      some ⟨[118], some 1000, 0⟩ ∧
    (setExec ⟨"k", [119], some .KeepTtl, none, false⟩ 100
      (initState.setWithTtl "k" [118] 7777 0)).2.keys "k" =
      some ⟨[119], some 1100, 0⟩ := by
  refine ⟨rfl, rfl, rfl, rfl, rfl, ?_, ?_⟩ <;> rfl

/-- C3 counterexample: INCR on an absent key stores the string 1 but replies
Simple OK, not a frame conveying the numeric value 1; INCR on the i64
maximum also replies Simple OK — the wrapping add stores the i64 minimum —
rather than an Error reply. -/
theorem C3_counterexample_incr_reply :
    (incrExec "k" 0 initState).1 = Frame.Simple (strBytes "OK") ∧
    Frame.Simple (strBytes "OK") ≠ Frame.Integer 1 ∧
    (incrExec "k" 0 initState).2.get "k" = some (strBytes "1") ∧
    (incrExec "k" 0 (initState.set "k" (strBytes "9223372036854775807") 0)).1 =
      Frame.Simple (strBytes "OK") ∧
    (incrExec "k" 0 (initState.set "k" (strBytes "9223372036854775807") 0)).2.get "k" =
      some (strBytes "-9223372036854775808") := by
  refine ⟨rfl, ?_, rfl, rfl, rfl⟩
  simp

/-- C3, amended.  INCR on an absent key stores the string 1 and replies
Simple OK (incr.rs discards the numeric result of incr_by); INCR on a key
holding the i64 maximum does not reply an error: the add wraps (release
semantics; a debug build would abort) to the i64 minimum, which is stored,
and the reply is again Simple OK. -/
theorem C3_incr_behavior (s : StoreState) (key : String) (now : Nat) :
    (s.get key = none →
      (incrExec key now s).1 = Frame.Simple (strBytes "OK") ∧
      (incrExec key now s).2.get key = some (strBytes "1")) ∧
    (s.get key = some (strBytes "9223372036854775807") →
      (incrExec key now s).1 = Frame.Simple (strBytes "OK") ∧
      (incrExec key now s).2.get key = some (strBytes "-9223372036854775808")) := by
  constructor
  · intro hget
    have hres : s.incrBy key 1 now = (.ok 1, s.set key (strBytes "1") now) := by
      unfold StoreState.incrBy
      rw [hget]
      rfl
    unfold incrExec
    rw [hres]
    exact ⟨rfl, get_set_self s key _ now⟩
  · intro hget
    have hres : s.incrBy key 1 now =
        (.ok (-9223372036854775808),
          s.set key (strBytes "-9223372036854775808") now) := by
      unfold StoreState.incrBy
      rw [hget]
      rfl
    unfold incrExec
    rw [hres]
    exact ⟨rfl, get_set_self s key _ now⟩

/-- C3 witness: both amended cases at concrete stores. -/
theorem C3_incr_witness :
    ((incrExec "k" 0 initState).1 = Frame.Simple (strBytes "OK") ∧
      (incrExec "k" 0 initState).2.get "k" = some (strBytes "1")) ∧
    ((incrExec "k" 0 (initState.set "k" (strBytes "9223372036854775807") 0)).1 =
        Frame.Simple (strBytes "OK") ∧
      (incrExec "k" 0 (initState.set "k" (strBytes "9223372036854775807") 0)).2.get "k" =
        some (strBytes "-9223372036854775808")) :=
  ⟨(C3_incr_behavior initState "k" 0).1 rfl,
    (C3_incr_behavior (initState.set "k" (strBytes "9223372036854775807") 0) "k" 0).2
      (get_set_self initState "k" _ 0)⟩

/-- C5: a SET with NX on an existing key or with XX on an absent key replies
the null bulk and leaves the store untouched; with GET the reply is never
Simple OK, and when the guard passes it is the prior value as Bulk, or the
null bulk when there was none. -/
theorem C5_set_nx_xx_get (c : SetCmd) (now : Nat) (s : StoreState) :
    (c.behavior = some .Nx → (s.get c.key).isSome = true →
      setExec c now s = (Frame.NullBulkString, s)) ∧
    (c.behavior = some .Xx → (s.get c.key).isNone = true →
      setExec c now s = (Frame.NullBulkString, s)) ∧
    (c.getOpt = true → ∀ msg, (setExec c now s).1 ≠ Frame.Simple msg) ∧
    (c.getOpt = true →
      ¬(c.behavior = some .Nx ∧ (s.get c.key).isSome) →
      ¬(c.behavior = some .Xx ∧ (s.get c.key).isNone) →
      (setExec c now s).1 = ((s.get c.key).map Frame.Bulk).getD Frame.NullBulkString) := by
  refine ⟨?_, ?_, ?_, ?_⟩
  · intro hb hv
    unfold setExec
    rw [if_pos ⟨hb, hv⟩]
  · intro hb hv
    unfold setExec
    by_cases h1 : c.behavior = some .Nx ∧ (s.get c.key).isSome
    · rw [hb] at h1
      cases h1.1
    · rw [if_neg h1, if_pos ⟨hb, hv⟩]
  · intro hg msg
    unfold setExec
    by_cases h1 : c.behavior = some .Nx ∧ (s.get c.key).isSome
    · rw [if_pos h1]
      simp
    · rw [if_neg h1]
      by_cases h2 : c.behavior = some .Xx ∧ (s.get c.key).isNone
      · rw [if_pos h2]
        simp
      · rw [if_neg h2]
        simp only [hg, if_pos]
        cases hv : s.get c.key with
        | none => simp
        | some bytes => simp
  · intro hg h1 h2
    unfold setExec
    rw [if_neg h1, if_neg h2]
    simp [hg]

/-- C5 witness: SET k 2 NX against a store where k holds 1 replies the null
bulk and leaves the store unchanged, and SET k 2 GET replies the prior
value. -/
theorem C5_set_witness :
    setExec ⟨"k", [50], none, some .Nx, false⟩ 0 (initState.set "k" [49] 0) =
      (Frame.NullBulkString, initState.set "k" [49] 0) ∧
    (setExec ⟨"k", [50], none, none, true⟩ 0 (initState.set "k" [49] 0)).1 =
      Frame.Bulk [49] := by
  constructor
  · exact (C5_set_nx_xx_get ⟨"k", [50], none, some .Nx, false⟩ 0
      (initState.set "k" [49] 0)).1 rfl (by rw [get_set_self]; rfl)
  · have h := (C5_set_nx_xx_get ⟨"k", [50], none, none, true⟩ 0
      (initState.set "k" [49] 0)).2.2.2 rfl (by simp) (by simp)
    rw [h, get_set_self]
    rfl

/-- C7 counterexample: the claim asserts offset 536870911 (2^29 - 1) is
accepted, but Setrange::try_from rejects any offset at or above
MAX_OFFSET = 536870911 (the guard is greater-or-equal, not greater). -/
theorem C7_counterexample_max_offset :
    setrangeTryFrom "key1" 536870911 [118] =
      .error (.InvalidCommandArgument "SETRANGE" "offset") := rfl

/-- C7, amended.  SETRANGE argument validation accepts every offset whose
usize cast is strictly below 536870911 = 2^29 - 1, building the command, and
rejects every offset whose usize cast is at least 536870911 with an
InvalidCommandArgument error — in particular both 536870911 and 2^29 are
rejected. -/
theorem C7_setrange_offset_guard (key : String) (offset : Int) (value : List Nat) :
    (usizeOfI64 offset < 536870911 →
      setrangeTryFrom key offset value = .ok ⟨key, offset, value⟩) ∧
    (536870911 ≤ usizeOfI64 offset →
      setrangeTryFrom key offset value =
        .error (.InvalidCommandArgument "SETRANGE" "offset")) := by
  constructor
  · intro h
    unfold setrangeTryFrom
    rw [if_neg (by omega)]
  · intro h
    unfold setrangeTryFrom
    rw [if_pos h]

/-- C7 witness: offset 536870910 is accepted and offset 2^29 is rejected. -/
theorem C7_setrange_witness :
    setrangeTryFrom "k" 536870910 [118] = .ok ⟨"k", 536870910, [118]⟩ ∧
    setrangeTryFrom "k" 536870912 [118] =
      .error (.InvalidCommandArgument "SETRANGE" "offset") :=
  ⟨(C7_setrange_offset_guard "k" 536870910 [118]).1 (by decide),
    (C7_setrange_offset_guard "k" 536870912 [118]).2 (by decide)⟩

/-- C9: TTL replies Integer minus two when the key is absent, Integer minus
one when it is present without TTL, the floor of the remaining seconds when
its expiration is in the future, and Integer zero once expired but not yet
reaped. -/
theorem C9_ttl_reply (key : String) (now : Nat) (s : StoreState) :
    (s.keys key = none → ttlExec key now s = Frame.Integer (-2)) ∧
    (∀ v, s.keys key = some v → v.expires_at = none →
      ttlExec key now s = Frame.Integer (-1)) ∧
    (∀ v e, s.keys key = some v → v.expires_at = some e → now < e →
      ttlExec key now s = Frame.Integer ((((e - now : Nat) / 1000 : Nat) : Int))) ∧
    (∀ v e, s.keys key = some v → v.expires_at = some e → e ≤ now →
      ttlExec key now s = Frame.Integer 0) := by
  refine ⟨?_, ?_, ?_, ?_⟩
  · intro hk
    unfold ttlExec StoreState.getTtl StoreState.existsKey
    rw [hk]
    rfl
  · intro v hk he
    unfold ttlExec StoreState.getTtl StoreState.existsKey
    rw [hk]
    simp [Option.some_bind, he]
  · intro v e hk he hlt
    unfold ttlExec StoreState.getTtl StoreState.existsKey
    rw [hk]
    simp [Option.some_bind, he, hlt]
  · intro v e hk he hge
    unfold ttlExec StoreState.getTtl StoreState.existsKey
    rw [hk]
    have hno : ¬ now < e := by omega
    simp [Option.some_bind, he, hno]

/-- C9 witness: the three reply shapes at concrete stores. -/
theorem C9_ttl_witness :
    ttlExec "k" 0 initState = Frame.Integer (-2) ∧
    ttlExec "k" 0 (initState.set "k" [49] 0) = Frame.Integer (-1) ∧
    ttlExec "k" 500 (initState.setWithTtl "k" [49] 10500 0) = Frame.Integer 10 ∧
    ttlExec "k" 99999 (initState.setWithTtl "k" [49] 10500 0) = Frame.Integer 0 := by
  refine ⟨(C9_ttl_reply "k" 0 initState).1 rfl, ?_, ?_, ?_⟩
  · exact (C9_ttl_reply "k" 0 _).2.1 _ rfl rfl
  · exact (C9_ttl_reply "k" 500 _).2.2.1 _ 10500 rfl rfl (by decide)
  · exact (C9_ttl_reply "k" 99999 _).2.2.2 _ 10500 rfl rfl (by decide)

/-- C10: for a present key, Getrange::exec panics at the
String::from_utf8(...).unwrap() exactly when the stored bytes are not valid
UTF-8 (none models the panic); on valid UTF-8 it returns a reply frame.
SET stores arbitrary bytes, so such states are reachable. -/
theorem C10_getrange_utf8_panic (key : String) (start endIdx : Int) (s : StoreState)
    (v : List Nat) (hk : s.get key = some v) :
    (getrangeExec key start endIdx s = none ↔ isValidUtf8 v = false) := by
  unfold getrangeExec
  rw [hk]
  cases hd : utf8Decode v with
  | none => simp [isValidUtf8, hd]
  | some chars => simp [isValidUtf8, hd]

/-- C10 witness: a key set to the single byte 255 (binary-safe SET) makes
GETRANGE panic, while an ASCII value does not. -/
theorem C10_getrange_witness :
    (getrangeExec "k" 0 0 (initState.set "k" [255] 0) = none ↔
      isValidUtf8 [255] = false) ∧
    getrangeExec "k" 0 0 (initState.set "k" [255] 0) = none :=
  ⟨C10_getrange_utf8_panic "k" 0 0 _ [255] (get_set_self initState "k" [255] 0),
    (C10_getrange_utf8_panic "k" 0 0 _ [255] (get_set_self initState "k" [255] 0)).mpr rfl⟩

theorem foldl_set_keys_ne (now : Nat) :
    ∀ (pairs : List (String × List Nat)) (s : StoreState) (k : String),
      k ∉ pairs.map Prod.fst →
      (pairs.foldl (fun st p => st.set p.1 p.2 now) s).keys k = s.keys k := by
  intro pairs
  induction pairs with
  | nil => intro s k _; rfl
  | cons q ps ih =>
    intro s k hk
    simp only [List.map_cons, List.mem_cons, not_or] at hk
    rw [List.foldl_cons, ih _ k hk.2, keys_set_ne s q.1 q.2 now hk.1]

theorem foldl_set_get (now : Nat) :
    ∀ (pairs : List (String × List Nat)) (s : StoreState),
      (pairs.map Prod.fst).Nodup →
      ∀ p ∈ pairs,
        (pairs.foldl (fun st p => st.set p.1 p.2 now) s).get p.1 = some p.2 := by
  intro pairs
  induction pairs with
  | nil => intro s _ p hp; cases hp
  | cons q ps ih =>
    intro s hnd p hp
    simp only [List.map_cons, List.nodup_cons] at hnd
    rcases List.mem_cons.mp hp with hp | hp
    · subst hp
      rw [List.foldl_cons]
      show StoreState.get _ p.1 = some p.2
      unfold StoreState.get
      rw [foldl_set_keys_ne now ps _ p.1 hnd.1]
      have hg := get_set_self s p.1 p.2 now
      unfold StoreState.get at hg
      exact hg
    · rw [List.foldl_cons]
      exact ih _ hnd.2 p hp

/-- C6: a RESP array headed by MSETNX parses to the Msetnx command (the
dispatch arm is modelled from the spec, the rest from msetnx.rs), and for a
non-empty pair list the execution is atomic: if any listed key exists the
reply is Integer 0 and the store is returned untouched; if none exists the
reply is Integer 1, keys outside the list are untouched, and (for distinct
listed keys) every pair is stored. -/
theorem C6_msetnx_atomic (args : List Frame) (pairs : List (String × List Nat))
    (now : Nat) (s : StoreState) (hp : msetnxTryFrom args = .ok pairs)
    (hne : pairs ≠ []) :
    commandTryFrom (.Array (.Bulk (strBytes "MSETNX") :: args)) = .ok (.Msetnx pairs) ∧
    ((∃ p ∈ pairs, s.existsKey p.1 = true) →
      msetnxExec pairs now s = (Frame.Integer 0, s)) ∧
    ((∀ p ∈ pairs, s.existsKey p.1 = false) →
      (msetnxExec pairs now s).1 = Frame.Integer 1 ∧
      (∀ k, k ∉ pairs.map Prod.fst → (msetnxExec pairs now s).2.keys k = s.keys k) ∧
      ((pairs.map Prod.fst).Nodup →
        ∀ p ∈ pairs, (msetnxExec pairs now s).2.get p.1 = some p.2)) := by
  refine ⟨?_, ?_, ?_⟩
  · have hname : parseCommandName (Frame.Bulk (strBytes "MSETNX") :: args) =
        .ok ("msetnx", args) := rfl
    simp only [commandTryFrom]
    rw [hname]
    simp [hp, Except.map]
  · rintro ⟨p, hpmem, hpex⟩
    have hany : pairs.any (fun p => s.existsKey p.1) = true :=
      List.any_eq_true.mpr ⟨p, hpmem, hpex⟩
    unfold msetnxExec
    rw [if_neg hne, if_pos hany]
  · intro hall
    have hany : pairs.any (fun p => s.existsKey p.1) = false := by
      rw [List.any_eq_false]
      intro p hpmem
      rw [hall p hpmem]
      simp
    unfold msetnxExec
    rw [if_neg hne,
      if_neg (show ¬ ((pairs.any fun p => s.existsKey p.1) = true) by simp [hany])]
    refine ⟨rfl, ?_, ?_⟩
    · intro k hk
      exact foldl_set_keys_ne now pairs s k hk
    · intro hnd p hpm
      exact foldl_set_get now pairs s hnd p hpm

/-- C6 witness: MSETNX k1 v1 k2 v2 on an empty store dispatches, writes both
pairs and replies Integer 1; on a store where k1 exists it replies Integer 0
with the store untouched. -/
theorem C6_msetnx_witness :
    commandTryFrom (.Array [.Bulk (strBytes "MSETNX"), .Bulk (strBytes "k1"),
        .Bulk [49], .Bulk (strBytes "k2"), .Bulk [50]]) =
      .ok (.Msetnx [("k1", [49]), ("k2", [50])]) ∧
    (msetnxExec [("k1", [49]), ("k2", [50])] 0 initState).1 = Frame.Integer 1 ∧
    (msetnxExec [("k1", [49]), ("k2", [50])] 0 initState).2.get "k1" = some [49] ∧
    msetnxExec [("k1", [49]), ("k2", [50])] 0 (initState.set "k1" [48] 0) =
      (Frame.Integer 0, initState.set "k1" [48] 0) := by
  have h := C6_msetnx_atomic [.Bulk (strBytes "k1"), .Bulk [49], .Bulk (strBytes "k2"),
    .Bulk [50]] [("k1", [49]), ("k2", [50])] 0 initState rfl (by simp)
  have h2 := C6_msetnx_atomic [.Bulk (strBytes "k1"), .Bulk [49], .Bulk (strBytes "k2"),
    .Bulk [50]] [("k1", [49]), ("k2", [50])] 0 (initState.set "k1" [48] 0) rfl (by simp)
  have hall : ∀ p ∈ [("k1", [49]), ("k2", [50])],
      initState.existsKey (Prod.fst p) = false := by decide
  have hempty := h.2.2 hall
  refine ⟨h.1, hempty.1, ?_, ?_⟩
  · exact hempty.2.2 (by decide) ("k1", [49]) (by simp)
  · exact h2.2.1 ⟨("k1", [49]), by simp, by rfl⟩

theorem utf8EncodeChar_length_pos (c : Char) : 1 ≤ (utf8EncodeChar c).length := by
  unfold utf8EncodeChar
  dsimp only
  split_ifs <;> simp

theorem length_le_utf8ByteLen (cs : List Char) : cs.length ≤ utf8ByteLen cs := by
  induction cs with
  | nil => simp [utf8ByteLen]
  | cons c cs ih =>
    have := utf8EncodeChar_length_pos c
    simp only [utf8ByteLen, List.map_cons, List.sum_cons, List.length_cons] at *
    omega

theorem usize_of_nonneg {i : Int} (h1 : 0 ≤ i) (h2 : i < 2 ^ 64) :
    usizeOfI64 i = i.toNat := by
  unfold usizeOfI64
  omega

theorem usize_of_neg {i : Int} (h1 : -(2 ^ 64) ≤ i) (h2 : i < 0) :
    usizeOfI64 i = (i + 2 ^ 64).toNat := by
  unfold usizeOfI64
  omega

/-- C8, amended.  GETRANGE offsets are inclusive and a negative offset n
resolves to length + n (length in bytes); an absent key replies an empty
Bulk; an inverted or overflowed range replies an empty Bulk whenever the
resolved end index is at least minus one (including start past the end, end
before start, and start below zero after resolution); but when the resolved
end index is minus two or below, the claim fails: (end + 1) as usize wraps
to a huge count, take keeps the whole string and the reply is the suffix
from start — in particular GETRANGE k 0 -18 on a sixteen byte value returns
the whole value, not an empty Bulk.  The example GETRANGE k -3 -1 on
"This is a string" yielding Bulk("ing") does hold (see the witness). -/
theorem C8_getrange_behavior (key : String) (start endIdx : Int) (s : StoreState) :
    (s.get key = none → getrangeExec key start endIdx s = some (.Bulk [])) ∧
    ∀ bytes chars, s.get key = some bytes → utf8Decode bytes = some chars →
      (utf8ByteLen chars : Int) < 2 ^ 63 →
      -(2 ^ 63) ≤ start → start < 2 ^ 63 → -(2 ^ 63) ≤ endIdx → endIdx < 2 ^ 63 →
      (start < 0 →
        getPositiveIndex (utf8ByteLen chars) start = (utf8ByteLen chars : Int) + start) ∧
      (0 ≤ getPositiveIndex (utf8ByteLen chars) start →
        getPositiveIndex (utf8ByteLen chars) start ≤
          getPositiveIndex (utf8ByteLen chars) endIdx →
        getrangeExec key start endIdx s = some (.Bulk (encodeChars
          ((chars.drop (getPositiveIndex (utf8ByteLen chars) start).toNat).take
            ((getPositiveIndex (utf8ByteLen chars) endIdx).toNat + 1 -
              (getPositiveIndex (utf8ByteLen chars) start).toNat))))) ∧
      (-1 ≤ getPositiveIndex (utf8ByteLen chars) endIdx →
        (getPositiveIndex (utf8ByteLen chars) endIdx <
            getPositiveIndex (utf8ByteLen chars) start ∨
          (utf8ByteLen chars : Int) ≤ getPositiveIndex (utf8ByteLen chars) start) →
        getrangeExec key start endIdx s = some (.Bulk [])) ∧
      (getPositiveIndex (utf8ByteLen chars) start < 0 →
        getrangeExec key start endIdx s = some (.Bulk [])) ∧
      (getPositiveIndex (utf8ByteLen chars) endIdx ≤ -2 →
        0 ≤ getPositiveIndex (utf8ByteLen chars) start →
        getrangeExec key start endIdx s = some (.Bulk (encodeChars
          (chars.drop (getPositiveIndex (utf8ByteLen chars) start).toNat)))) := by
  constructor
  · intro hget
    unfold getrangeExec
    rw [hget]
  · intro bytes chars hget hdec hlen hst1 hst2 hen1 hen2
    have hexec : getrangeExec key start endIdx s = some (.Bulk (encodeChars
        ((chars.take (usizeOfI64 (getPositiveIndex (utf8ByteLen chars) endIdx + 1))).drop
          (usizeOfI64 (getPositiveIndex (utf8ByteLen chars) start))))) := by
      unfold getrangeExec
      simp only [hget, hdec]
    have hchars : (chars.length : Int) ≤ (utf8ByteLen chars : Int) := by
      exact_mod_cast length_le_utf8ByteLen chars
    have hlen0 : (0 : Int) ≤ (utf8ByteLen chars : Int) := by positivity
    have hsb : -(2 ^ 63) ≤ getPositiveIndex (utf8ByteLen chars) start ∧
        getPositiveIndex (utf8ByteLen chars) start < 2 ^ 63 := by
      unfold getPositiveIndex
      split_ifs with h
      · omega
      · omega
    have heb : -(2 ^ 63) ≤ getPositiveIndex (utf8ByteLen chars) endIdx ∧
        getPositiveIndex (utf8ByteLen chars) endIdx < 2 ^ 63 := by
      unfold getPositiveIndex
      split_ifs with h
      · omega
      · omega
    refine ⟨?_, ?_, ?_, ?_, ?_⟩
    · intro hneg
      unfold getPositiveIndex
      rw [if_neg (by omega)]
      omega
    · intro h0 hse
      have hu0 : usizeOfI64 (getPositiveIndex (utf8ByteLen chars) start) =
          (getPositiveIndex (utf8ByteLen chars) start).toNat :=
        usize_of_nonneg h0 (by omega)
      have hu1 : usizeOfI64 (getPositiveIndex (utf8ByteLen chars) endIdx + 1) =
          (getPositiveIndex (utf8ByteLen chars) endIdx).toNat + 1 := by
        rw [usize_of_nonneg (by omega) (by omega)]
        omega
      rw [hexec, hu0, hu1, List.drop_take]
    · intro hem1 hinv
      by_cases h0 : 0 ≤ getPositiveIndex (utf8ByteLen chars) start
      · have hu0 : usizeOfI64 (getPositiveIndex (utf8ByteLen chars) start) =
            (getPositiveIndex (utf8ByteLen chars) start).toNat :=
          usize_of_nonneg h0 (by omega)
        have hu1 : usizeOfI64 (getPositiveIndex (utf8ByteLen chars) endIdx + 1) =
            (getPositiveIndex (utf8ByteLen chars) endIdx + 1).toNat :=
          usize_of_nonneg (by omega) (by omega)
        rw [hexec, hu0, hu1]
        have hdrop : ((chars.take
            ((getPositiveIndex (utf8ByteLen chars) endIdx + 1).toNat)).length) ≤
            (getPositiveIndex (utf8ByteLen chars) start).toNat := by
          rw [List.length_take]
          rcases hinv with hinv | hinv
          · omega
          · omega
        rw [List.drop_eq_nil_of_le hdrop]
        rfl
      · push_neg at h0
        have hu0 : usizeOfI64 (getPositiveIndex (utf8ByteLen chars) start) =
            (getPositiveIndex (utf8ByteLen chars) start + 2 ^ 64).toNat :=
          usize_of_neg (by omega) h0
        rw [hexec, hu0]
        have hdrop : ((chars.take
            (usizeOfI64 (getPositiveIndex (utf8ByteLen chars) endIdx + 1))).length) ≤
            (getPositiveIndex (utf8ByteLen chars) start + 2 ^ 64).toNat := by
          rw [List.length_take]
          omega
        rw [List.drop_eq_nil_of_le hdrop]
        rfl
    · intro h0
      have hu0 : usizeOfI64 (getPositiveIndex (utf8ByteLen chars) start) =
          (getPositiveIndex (utf8ByteLen chars) start + 2 ^ 64).toNat :=
        usize_of_neg (by omega) h0
      rw [hexec, hu0]
      have hdrop : ((chars.take
          (usizeOfI64 (getPositiveIndex (utf8ByteLen chars) endIdx + 1))).length) ≤
          (getPositiveIndex (utf8ByteLen chars) start + 2 ^ 64).toNat := by
        rw [List.length_take]
        omega
      rw [List.drop_eq_nil_of_le hdrop]
      rfl
    · intro hem2 h0
      have hu0 : usizeOfI64 (getPositiveIndex (utf8ByteLen chars) start) =
          (getPositiveIndex (utf8ByteLen chars) start).toNat :=
        usize_of_nonneg h0 (by omega)
      have hu1 : usizeOfI64 (getPositiveIndex (utf8ByteLen chars) endIdx + 1) =
          (getPositiveIndex (utf8ByteLen chars) endIdx + 1 + 2 ^ 64).toNat :=
        usize_of_neg (by omega) (by omega)
      have htake : chars.take
          ((getPositiveIndex (utf8ByteLen chars) endIdx + 1 + 2 ^ 64).toNat) = chars :=
        List.take_of_length_le (by omega)
      rw [hexec, hu0, hu1, htake]

/-- C8 counterexample: after SET k "This is a string" (sixteen bytes),
GETRANGE k 0 -18 resolves the end offset to -2; the claim calls this an
overflowed range and demands an empty Bulk, but (end + 1) as usize wraps to
2^64 - 1, take keeps all sixteen characters and the reply is the whole
value. -/
theorem C8_counterexample_wrap :
    getrangeExec "k" 0 (-18) (initState.set "k" (strBytes "This is a string") 0) =
      some (.Bulk (strBytes "This is a string")) ∧
    strBytes "This is a string" ≠ ([] : List Nat) := by
  refine ⟨rfl, by decide⟩

/-- C8 witness: the spec's example, GETRANGE k -3 -1 after
SET k "This is a string" replies Bulk("ing"), through the amended theorem's
inclusive-slice case. -/
theorem C8_getrange_witness :
    getrangeExec "k" (-3) (-1) (initState.set "k" (strBytes "This is a string") 0) =
      some (.Bulk (strBytes "ing")) := by
  have h := (C8_getrange_behavior "k" (-3) (-1)
      (initState.set "k" (strBytes "This is a string") 0)).2
      (strBytes "This is a string") ("This is a string".data)
      (get_set_self _ _ _ _) (by decide) (by decide) (by decide) (by decide)
      (by decide) (by decide)
  have hb := h.2.1 (by decide) (by decide)
  rw [hb]
  rfl

end Rustdis
